import Mathlib

set_option maxRecDepth 8000
set_option linter.unusedVariables false

/-!
# Verification of the a2dr proximal-operator layer

Shallow embedding of `a2dr/proximal/norm.py` (the five norm proximal operators and
their public facades) over an arbitrary linear ordered field `K`, idealizing IEEE
floating point by exact field arithmetic.

Containers (`NumCont`) model numpy dense arrays (0-, 1-, 2- and 3-dimensional) and
scipy sparse matrices (always 2-dimensional); the sparse/dense distinction is a
structural tag, and the scipy operations used by the code are modelled with their
documented semantics (in particular, adding or subtracting a *nonzero* scalar to a
sparse matrix raises `NotImplementedError`, and `numpy.linalg.svd` rejects a scipy
sparse argument).

Genuinely irrational collaborators (the square root inside the Euclidean/Frobenius
norm, and the singular value decomposition) are passed in as function parameters and
characterized by hypotheses (`IsSqrtAt`, `IsSVDOf`) in the theorems, keeping every
definition executable.

`a2dr/proximal/composition.py` (`prox_scale`) and `a2dr/proximal/projection.py`
(`proj_l1`) are not part of the sources under verification; they are modelled from
the specification's own description (see the `Modelled from the spec:` doc comments).

Python exceptions are modelled by `Except NumErr`; a raised exception is an
`Except.error` value that propagates in evaluation order.
-/

/-- Errors observable from the modelled Python code paths.  Each constructor names
the Python exception class it stands for; `notModelled` marks code paths that no
claim exercises and that this embedding deliberately leaves unspecified. -/
inductive NumErr : Type where
  /-- scipy: `NotImplementedError`, e.g. adding/subtracting a nonzero scalar to a sparse matrix. -/
  | notImplemented
  /-- Python `UnboundLocalError`: a local variable read before assignment. -/
  | unboundLocal
  /-- `numpy.linalg.LinAlgError`, e.g. `svd` applied to a non-2-D (or non-array) argument. -/
  | linAlg
  /-- Python `ValueError`, e.g. a failed validation check, or `np.vstack([])`. -/
  | valueErr
  /-- Python `IndexError`, e.g. `shape[1]` on an array of dimension below 2. -/
  | indexErr
  /-- shape-incompatible elementwise binary operation (numpy broadcast failure). -/
  | shapeMismatch
  /-- a path the embedding does not model; no claim depends on it. -/
  | notModelled
deriving DecidableEq

/-- Numeric container: a dense or sparse real vector/matrix, as in the Python code.
`dvec` is a 1-D numpy array, `dmat` a 2-D numpy array (list of rows), `spmat` a scipy
sparse matrix (always 2-D; the values are stored here densely as rows — the sparsity
pattern is not needed for the claims, only the representation tag), `darr0` a 0-D
numpy array and `darr3` a 3-D numpy array. -/
inductive NumCont (K : Type) : Type where
  | dvec (v : List K)
  | dmat (rows : List (List K))
  | spmat (rows : List (List K))
  | darr0 (x : K)
  | darr3 (a : List (List (List K)))
deriving DecidableEq

variable {K : Type} [LinearOrderedField K]

/-- Number of dimensions, as reported by `len(v.shape)`. -/
def NumCont.ndim : NumCont K → ℕ
  | .dvec _ => 1
  | .dmat _ => 2
  | .spmat _ => 2
  | .darr0 _ => 0
  | .darr3 _ => 3

/-- Elementwise map, preserving shape and representation (numpy/scipy elementwise
operations that are defined for both representations). -/
def NumCont.map (f : K → K) : NumCont K → NumCont K
  | .dvec v => .dvec (v.map f)
  | .dmat m => .dmat (m.map (fun r => r.map f))
  | .spmat m => .spmat (m.map (fun r => r.map f))
  | .darr0 x => .darr0 (f x)
  | .darr3 a => .darr3 (a.map (fun p => p.map (fun r => r.map f)))

/-- All entries of a container, flattened (used to express sums of squares). -/
def NumCont.entries : NumCont K → List K
  | .dvec v => v
  | .dmat m => m.flatten
  | .spmat m => m.flatten
  | .darr0 x => [x]
  | .darr3 a => (a.map List.flatten).flatten

/-- Scalar multiplication `c * v` (defined for dense arrays and sparse matrices alike). -/
def smul (c : K) (v : NumCont K) : NumCont K := v.map (fun x => c * x)

/-- Zero container of the same shape and representation, as produced by
`np.zeros(v.shape)` resp. `sparse.csr_matrix(v.shape)`. -/
def zerosLike (v : NumCont K) : NumCont K := v.map (fun _ => 0)

/-- Elementwise maximum with a scalar: `np.maximum(v, c)` for dense input, and the
sparse method `v.maximum(c)` for sparse input (the code only uses `c = 0`, for which
scipy keeps the result sparse). -/
def maxScalar (v : NumCont K) (c : K) : NumCont K := v.map (fun x => max x c)

/-- Subtraction of a scalar, `v - t`.  For a dense array this is elementwise; scipy
raises `NotImplementedError` when a *nonzero* scalar is subtracted from a sparse
matrix (for a zero scalar it returns a copy). -/
def subScalar (v : NumCont K) (t : K) : Except NumErr (NumCont K) :=
  match v with
  | .spmat m => if t = 0 then .ok (.spmat m) else .error .notImplemented
  | w => .ok (w.map (fun x => x - t))

/-- Addition of a scalar, `v + b`, with the same sparse restriction as `subScalar`
(scipy raises `NotImplementedError` when adding a nonzero scalar to a sparse matrix). -/
def addScalar (v : NumCont K) (b : K) : Except NumErr (NumCont K) :=
  match v with
  | .spmat m => if b = 0 then .ok (.spmat m) else .error .notImplemented
  | w => .ok (w.map (fun x => x + b))

/-- Elementwise difference of two containers of the same shape and representation.
All call sites in the modelled code subtract same-shaped values; a representation
mismatch is mapped to a broadcast failure. -/
def csub : NumCont K → NumCont K → Except NumErr (NumCont K)
  | .dvec a, .dvec b => .ok (.dvec (List.zipWith (fun x y => x - y) a b))
  | .dmat a, .dmat b => .ok (.dmat (List.zipWith (fun r s => List.zipWith (fun x y => x - y) r s) a b))
  | .spmat a, .spmat b => .ok (.spmat (List.zipWith (fun r s => List.zipWith (fun x y => x - y) r s) a b))
  | .darr0 a, .darr0 b => .ok (.darr0 (a - b))
  | .darr3 a, .darr3 b => .ok (.darr3 (List.zipWith (fun p q => List.zipWith (fun r s => List.zipWith (fun x y => x - y) r s) p q) a b))
  | _, _ => .error .shapeMismatch

/-- Sum of squares of a list. -/
def sumSqL (l : List K) : K := (l.map (fun x => x ^ 2)).sum

/-- Sum of squares of all entries of a container; the Euclidean (1-D) and Frobenius
(2-D) norms of the code are both the square root of this quantity. -/
def sumSqC (v : NumCont K) : K := sumSqL v.entries

/-- L1 norm of a list (sum of absolute values). -/
def l1norm (l : List K) : K := (l.map (fun x => |x|)).sum

/-- Elementwise difference of two equally long lists. -/
def lsubL (a b : List K) : List K := List.zipWith (fun x y => x - y) a b

/-- Squared Euclidean distance between two equally long lists (comparing squared
distances is equivalent to comparing Euclidean distances). -/
def distSqL (a b : List K) : K := sumSqL (lsubL a b)

/-- Sign of a scalar (as in the soft-thresholding closed form; `sgn 0 = 0`). -/
def sgn (x : K) : K := if x < 0 then -1 else if x = 0 then 0 else 1

/-- Predicate: `f` evaluates the exact nonnegative square root at the point `x`
(hypothesis characterizing the numeric library's `sqrt` where it is used). -/
def IsSqrtAt (f : K → K) (x : K) : Prop := 0 ≤ f x ∧ f x ^ 2 = x

/-- Proximal operator of `f(x) = ‖x‖₁` — `prox_norm1_base` from `norm.py`:
`max_elemwise(v - t, 0) - max_elemwise(-v - t, 0)` with the representation-appropriate
elementwise maximum.  Note the two scalar subtractions `v - t` and `-v - t` run first;
for a sparse `v` and nonzero `t` the first of them raises. -/
def prox_norm1_base (v : NumCont K) (t : K) : Except NumErr (NumCont K) :=
  match subScalar v t with
  | .error e => .error e
  | .ok m1 =>
    match subScalar (v.map (fun x => -x)) t with
    | .error e => .error e
    | .ok m2 => csub (maxScalar m1 0) (maxScalar m2 0)

/-- Norm computed by `prox_norm2_base`: Frobenius for 2-D input, Euclidean for 1-D
input, and *unassigned* (Python local `v_norm` never bound) otherwise.  Both norms are
the square root of the sum of squared entries; `sqrtFn` stands for the library's
square root. -/
def normOf (v : NumCont K) (sqrtFn : K → K) : Option K :=
  if v.ndim = 2 then some (sqrtFn (sumSqC v))
  else if v.ndim = 1 then some (sqrtFn (sumSqC v))
  else none

/-- Proximal operator of `f(x) = ‖x‖₂` — `prox_norm2_base` from `norm.py`.
If the norm variable was never assigned (ndim outside {1, 2}) the subsequent
`if v_norm == 0` read raises `UnboundLocalError`.  A zero norm returns the zero
container of the same shape and representation; otherwise the input is scaled by
`max(1 - t/‖v‖, 0)`. -/
def prox_norm2_base (v : NumCont K) (t : K) (sqrtFn : K → K) : Except NumErr (NumCont K) :=
  match normOf v sqrtFn with
  | none => .error .unboundLocal
  | some vn =>
    if vn = 0 then .ok (zerosLike v)
    else .ok (smul (max (1 - t / vn) 0) v)

/-- Sorted absolute values in descending order (first step of the sorted-threshold
projection algorithm). -/
def absDesc (v : List K) : List K := List.insertionSort (· ≥ ·) (v.map (fun x => |x|))

/-- Sum of the first `m` entries of a list. -/
def cumSum (u : List K) (m : ℕ) : K := (u.take m).sum

/-- Test of the sorted-threshold algorithm at (0-based) position `j`:
the cumulative-mean-adjusted threshold is still positive there, i.e.
`u_j - (S_{j+1} - 1)/(j+1) > 0`, written multiplied out. -/
def goodB (u : List K) (j : ℕ) : Bool := decide (cumSum u (j + 1) - 1 < u.getD j 0 * ((j : K) + 1))

/-- Largest 0-based index passing `goodB` (the index `ρ` of the classical algorithm). -/
def rhoIdx (u : List K) : ℕ := ((List.range u.length).filter (fun j => goodB u j)).foldr max 0

/-- Threshold `θ = (S_{ρ+1} - 1)/(ρ+1)` of the sorted-threshold algorithm. -/
def thetaOf (u : List K) : K := (cumSum u (rhoIdx u + 1) - 1) / ((rhoIdx u : K) + 1)

/-- Soft-thresholding of a scalar at level `θ`: `sgn x * max(|x| - θ, 0)` (the "clip"
step of the projection algorithm). -/
def softTh (θ x : K) : K := sgn x * max (|x| - θ) 0

/-- Modelled from the spec: `proj_l1` lives in `a2dr/proximal/projection.py`, which is
not among the sources under verification.  Following the specification's §4.4 and §6:
the routine accepts any real vector and returns the Euclidean projection onto the unit
L1 ball via the classical sorted-threshold algorithm — a vector already in the ball is
returned unchanged; otherwise the absolute values are sorted in descending order, the
largest index with positive cumulative-mean-adjusted threshold determines `θ`, and the
entries are clipped by soft-thresholding at `θ`.  The claim theorem below proves this
definition is indeed the Euclidean projection. -/
def proj_l1 (v : List K) : List K :=
  if l1norm v ≤ 1 then v
  else v.map (softTh (thetaOf (absDesc v)))

/-- Proximal operator of `f(x) = ‖x‖_∞` — `prox_norm_inf_base` from `norm.py`:
`v - t * proj_l1(v/t)` via Moreau's identity with the dual (L1) ball projection.
The code has no sparse handling (marked `TODO` in the source), and the modelled
`proj_l1` collaborator accepts vectors, so only 1-D dense input is modelled. -/
def prox_norm_inf_base (v : NumCont K) (t : K) : Except NumErr (NumCont K) :=
  match v with
  | .dvec l =>
    .ok (.dvec (List.zipWith (fun x y => x - y) l ((proj_l1 (l.map (fun x => x / t))).map (fun y => t * y))))
  | _ => .error .notModelled

/-- Result triple of `numpy.linalg.svd(B, full_matrices=False)`: `U` (m×k), the
singular values `s` (length k) and `Vt` (k×n), with `k = min(m, n)`. -/
structure SVDFactors (K : Type) : Type where
  U : List (List K)
  s : List K
  Vt : List (List K)
deriving DecidableEq

/-- Number of columns of a list-of-rows matrix (length of the first row). -/
def colsCount (M : List (List K)) : ℕ := (M.headD []).length

/-- Column `j` of a list-of-rows matrix. -/
def colL (M : List (List K)) (j : ℕ) : List K := M.map (fun r => r.getD j 0)

/-- Dot product of two equally long lists. -/
def dotL (a b : List K) : K := (List.zipWith (fun x y => x * y) a b).sum

/-- Transpose of a list-of-rows matrix with `m` columns in the result
(i.e. the input has `m` rows' worth of entries per column). -/
def transposeFix (M : List (List K)) (m : ℕ) : List (List K) :=
  (List.range m).map (fun i => M.map (fun r => r.getD i 0))

/-- Matrix product of two list-of-rows matrices. -/
def matmulL (A B : List (List K)) : List (List K) :=
  A.map (fun r => (List.range (colsCount B)).map (fun j => dotL r (colL B j)))

/-- Square diagonal matrix with the given diagonal, `np.diag(s)`. -/
def diagL (s : List K) : List (List K) :=
  (List.range s.length).map (fun i => (List.range s.length).map (fun j => if i = j then s.getD i 0 else 0))

/-- Identity matrix of size `k`. -/
def idMat (k : ℕ) : List (List K) :=
  (List.range k).map (fun i => (List.range k).map (fun j => if i = j then 1 else 0))

/-- Characterization of `numpy.linalg.svd(A, full_matrices=False) = (U, s, Vt)`:
the factors reconstruct `A`, `U` has orthonormal columns, `Vt` has orthonormal rows,
and the singular values are nonnegative and in descending order. -/
def IsSVDOf (A : List (List K)) (F : SVDFactors K) : Prop :=
  matmulL (matmulL F.U (diagL F.s)) F.Vt = A ∧
  matmulL (transposeFix F.U F.s.length) F.U = idMat F.s.length ∧
  matmulL F.Vt (transposeFix F.Vt (colsCount F.Vt)) = idMat F.s.length ∧
  List.Sorted (· ≥ ·) F.s ∧
  ∀ x ∈ F.s, 0 ≤ x

/-- Proximal operator of the nuclear norm — `prox_norm_nuc_base` from `norm.py`:
compute `U, s, Vt = np.linalg.svd(B, full_matrices=False)`, shrink the singular values
to `max(s - t, 0)` and reconstruct densely.  `svd` stands for the numpy collaborator
(characterized by `IsSVDOf` in the theorems).  `np.linalg.svd` raises `LinAlgError`
on a scipy sparse argument (`np.asarray` wraps it as a 0-dimensional object array) and
on any array of dimension below 2; a 3-D array would be batch-decomposed, which no
claim exercises. -/
def prox_norm_nuc_base (B : NumCont K) (t : K) (svd : List (List K) → SVDFactors K) :
    Except NumErr (NumCont K) :=
  match B with
  | .dmat rows =>
    let F := svd rows
    let snew := F.s.map (fun x => max (x - t) 0)
    .ok (.dmat (matmulL (matmulL F.U (diagL snew)) F.Vt))
  | .spmat _ => .error .linAlg
  | .darr3 _ => .error .notModelled
  | _ => .error .linAlg

/-- Modelled from the spec: the affine/quadratic parameter bundle of
`a2dr/proximal/composition.py` (not among the sources under verification), with the
documented defaults `a = 1, b = 0, c = 0, d = 0`.  Scalar parameters suffice for the
claims under verification. -/
structure ProxParams (K : Type) : Type where
  scale : K
  offset : K
  lin_term : K
  quad_term : K
deriving DecidableEq

/-- Default parameter bundle `{a: 1, b: 0, c: 0, d: 0}` (pure base-operator call). -/
def defaultParams : ProxParams K := ⟨1, 0, 0, 0⟩

/-- Modelled from the spec: `prox_scale` from `a2dr/proximal/composition.py` is not
among the sources under verification.  Following the specification's §4.1: the
composed callable first rejects `t ≤ 0`, a zero `scale` and a negative `quad_term`
with a validation failure (`ValueError`) before any computation; it then forms
`v' = (v - t·c)/(1 + 2d)` with `s = 1/(1 + 2d)`, calls the base operator at
`a∘v' - b` with step `t·a²·s`, maps the result back by `x = (P_f(...) + b)/a` and
rescales once more by `s`.  Failures of the wrapped base operator (and of the sparse
scalar additions) propagate unchanged. -/
def prox_scale (P : NumCont K → K → Except NumErr (NumCont K)) (p : ProxParams K)
    (v : NumCont K) (t : K) : Except NumErr (NumCont K) :=
  if t ≤ 0 then .error .valueErr
  else if p.scale = 0 then .error .valueErr
  else if p.quad_term < 0 then .error .valueErr
  else
    let s := 1 / (1 + 2 * p.quad_term)
    match subScalar v (t * p.lin_term) with
    | .error e => .error e
    | .ok w =>
      match subScalar (smul p.scale (smul s w)) p.offset with
      | .error e => .error e
      | .ok arg =>
        match P arg (t * p.scale ^ 2 * s) with
        | .error e => .error e
        | .ok r =>
          match addScalar r p.offset with
          | .error e => .error e
          | .ok r2 => .ok (smul s (smul (1 / p.scale) r2))

/-- Public facade `prox_norm1` from `norm.py`: delegate to the composition transform
wrapping the L1 base operator. -/
def prox_norm1 (v : NumCont K) (t : K) (p : ProxParams K) : Except NumErr (NumCont K) :=
  prox_scale prox_norm1_base p v t

/-- Public facade `prox_norm2` from `norm.py`. -/
def prox_norm2 (v : NumCont K) (t : K) (sqrtFn : K → K) (p : ProxParams K) :
    Except NumErr (NumCont K) :=
  prox_scale (fun w s => prox_norm2_base w s sqrtFn) p v t

/-- Public facade `prox_norm_inf` from `norm.py`. -/
def prox_norm_inf (v : NumCont K) (t : K) (p : ProxParams K) : Except NumErr (NumCont K) :=
  prox_scale prox_norm_inf_base p v t

/-- Public facade `prox_norm_nuc` from `norm.py`. -/
def prox_norm_nuc (B : NumCont K) (t : K) (svd : List (List K) → SVDFactors K)
    (p : ProxParams K) : Except NumErr (NumCont K) :=
  prox_scale (fun w s => prox_norm_nuc_base w s svd) p B t

/-- Sparse column matrix `B[:,j]` of a sparse matrix (an m×1 sparse matrix in scipy). -/
def colMat (rows : List (List K)) (j : ℕ) : List (List K) :=
  rows.map (fun r => [r.getD j 0])

/-- Horizontal concatenation `sparse.hstack` of a list of m×1 blocks into an m×n
matrix (values only; the result is sparse). -/
def hstackRows (mats : List (List (List K))) (m : ℕ) : List (List K) :=
  (List.range m).map (fun i => (mats.map (fun M => M.getD i [])).flatten)

/-- Sequence a list of fallible computations, propagating the first error — the
evaluation order of a Python list comprehension whose body may raise. -/
def collectEx {α β : Type} (l : List α) (g : α → Except NumErr β) : Except NumErr (List β) :=
  match l with
  | [] => .ok []
  | a :: rest =>
    match g a with
    | .error e => .error e
    | .ok c =>
      match collectEx rest g with
      | .error e => .error e
      | .ok cs => .ok (c :: cs)

/-- Underlying list of a 1-D container (the callers below only apply it to `dvec`). -/
def vecOf : NumCont K → List K
  | .dvec l => l
  | _ => []

/-- Underlying rows of a 2-D container (the callers below only apply it to results
that are matrices). -/
def matOf : NumCont K → List (List K)
  | .dmat m => m
  | .spmat m => m
  | _ => []

/-- Proximal operator of the group lasso — `prox_group_lasso_base` from `norm.py`:
apply the *public* `prox_norm2` (with default parameters) to every column `B[:,j]`,
then reassemble: `np.vstack(cols).T` densely, `sparse.hstack(cols)` sparsely.
For a 1-D or 0-D input, `B.shape[1]` raises `IndexError`.  Stacking an empty list of
blocks (a zero-column input) raises `ValueError` in both numpy and scipy. -/
def prox_group_lasso_base (B : NumCont K) (t : K) (sqrtFn : K → K) :
    Except NumErr (NumCont K) :=
  match B with
  | .dmat rows =>
    match collectEx (List.range (colsCount rows))
        (fun j => prox_norm2 (.dvec (colL rows j)) t sqrtFn defaultParams) with
    | .error e => .error e
    | .ok cols =>
      if cols = [] then .error .valueErr
      else .ok (.dmat (transposeFix (cols.map vecOf) rows.length))
  | .spmat rows =>
    match collectEx (List.range (colsCount rows))
        (fun j => prox_norm2 (.spmat (colMat rows j)) t sqrtFn defaultParams) with
    | .error e => .error e
    | .ok cols =>
      if cols = [] then .error .valueErr
      else .ok (.spmat (hstackRows (cols.map matOf) rows.length))
  | .darr3 _ => .error .notModelled
  | _ => .error .indexErr

/-- Public facade `prox_group_lasso` from `norm.py`. -/
def prox_group_lasso (B : NumCont K) (t : K) (sqrtFn : K → K) (p : ProxParams K) :
    Except NumErr (NumCont K) :=
  prox_scale (fun w s => prox_group_lasso_base w s sqrtFn) p B t

/-- Action of `prox_norm2_base` on a dense vector, as a list function (proved below);
used to state the per-column property of the group lasso. -/
def l2shrinkVec (sqrtFn : K → K) (t : K) (c : List K) : List K :=
  if sqrtFn (sumSqL c) = 0 then List.replicate c.length 0
  else c.map (fun x => max (1 - t / sqrtFn (sumSqL c)) 0 * x)

/-- Common value of both branches of `prox_group_lasso_base` on a (rectangular,
nonempty) matrix with rows `rows`: the matrix whose column `j` is the L2 shrinkage of
column `j` of the input (proved below). -/
def groupLassoPayload (rows : List (List K)) (t : K) (sqrtFn : K → K) : List (List K) :=
  transposeFix ((List.range (colsCount rows)).map (fun j => l2shrinkVec sqrtFn t (colL rows j)))
    rows.length

/-- Stand-in numeric square root for concrete witnesses: the constant function `c`
(a valid square root at the single point where the witness uses it). -/
def sqrtStub (c : ℚ) : ℚ → ℚ := fun _ => c

/-- Stand-in SVD collaborator for concrete witnesses. -/
def svdStub : List (List ℚ) → SVDFactors ℚ := fun _ => ⟨[[1]], [2], [[1]]⟩

/-! ## Basic container lemmas -/

set_option linter.unusedSectionVars false

theorem NumCont.map_id (v : NumCont K) : v.map (fun x => x) = v := by
  cases v <;> simp [NumCont.map]

theorem flatten_map_map (f : K → K) (m : List (List K)) :
    (m.map (fun r => r.map f)).flatten = m.flatten.map f := by
  induction m with
  | nil => rfl
  | cons r m ih =>
    rw [List.map_cons, List.flatten_cons, List.flatten_cons, List.map_append, ih]

theorem NumCont.entries_map (f : K → K) (v : NumCont K) :
    (v.map f).entries = v.entries.map f := by
  cases v with
  | dvec l => rfl
  | dmat m => exact flatten_map_map f m
  | spmat m => exact flatten_map_map f m
  | darr0 x => rfl
  | darr3 a =>
    show ((a.map (fun p => p.map (fun r => r.map f))).map List.flatten).flatten
        = ((a.map List.flatten).flatten).map f
    rw [List.map_map]
    have h1 : (List.flatten ∘ fun p : List (List K) => p.map (fun r => r.map f))
        = (fun p : List (List K) => p.flatten.map f) := by
      funext p; exact flatten_map_map f p
    have h2 : (fun p : List (List K) => p.flatten.map f)
        = (fun r : List K => r.map f) ∘ List.flatten := rfl
    rw [h1, h2, ← List.map_map, flatten_map_map]

theorem subScalar_zero (v : NumCont K) : subScalar v 0 = .ok v := by
  cases v <;> simp [subScalar, NumCont.map]

theorem addScalar_zero (v : NumCont K) : addScalar v 0 = .ok v := by
  cases v <;> simp [addScalar, NumCont.map]

theorem smul_one_cont (v : NumCont K) : smul 1 v = v := by
  cases v <;> simp [smul, NumCont.map]

theorem smul_zero_cont (v : NumCont K) : smul 0 v = zerosLike v := by
  cases v <;> simp [smul, zerosLike, NumCont.map]

theorem sumSqL_map_mul (c : K) (l : List K) :
    sumSqL (l.map (fun x => c * x)) = c ^ 2 * sumSqL l := by
  induction l with
  | nil => simp [sumSqL]
  | cons a l ih =>
    simp only [sumSqL, List.map_cons, List.sum_cons] at ih ⊢
    rw [ih]
    ring

theorem sumSqC_smul (c : K) (v : NumCont K) : sumSqC (smul c v) = c ^ 2 * sumSqC v := by
  rw [sumSqC, smul, NumCont.entries_map, sumSqL_map_mul]
  rfl

/-! ## The composition transform at the default parameters -/

theorem prox_scale_default (P : NumCont K → K → Except NumErr (NumCont K))
    (v : NumCont K) (t : K) (ht : 0 < t) :
    prox_scale P defaultParams v t = P v t := by
  have h1 : ¬ t ≤ 0 := not_le.mpr ht
  have hs : (1 : K) / (1 + 2 * 0) = 1 := by norm_num
  simp only [prox_scale, defaultParams, h1, if_false, one_ne_zero, lt_irrefl, mul_zero,
    subScalar_zero, hs, smul_one_cont, one_pow, mul_one]
  cases hP : P v t <;> simp [hP, addScalar_zero, smul_one_cont]

/-! ## Soft thresholding (L1) -/

theorem zipWith_sub_map_map (f g : K → K) (l : List K) :
    List.zipWith (fun x y => x - y) (l.map f) (l.map g) = l.map (fun x => f x - g x) := by
  induction l with
  | nil => rfl
  | cons a l ih => simp only [List.map_cons, List.zipWith_cons_cons, ih]

theorem zipWith_sub_map_map2 (f g : K → K) (m : List (List K)) :
    List.zipWith (fun r s => List.zipWith (fun x y => x - y) r s)
      (m.map (fun r => r.map f)) (m.map (fun r => r.map g))
      = m.map (fun r => r.map (fun x => f x - g x)) := by
  induction m with
  | nil => rfl
  | cons r m ih => simp only [List.map_cons, List.zipWith_cons_cons, ih, zipWith_sub_map_map]

theorem soft_threshold_scalar (t x : K) (ht : 0 ≤ t) :
    max (x - t) 0 - max (-x - t) 0 = sgn x * max (|x| - t) 0 := by
  rcases lt_trichotomy x 0 with hx | hx | hx
  · have h1 : x - t ≤ 0 := by linarith
    rw [sgn, if_pos hx, abs_of_neg hx, max_eq_right h1, neg_one_mul, zero_sub]
  · subst hx
    simp [sgn]
  · have h2 : -x - t ≤ 0 := by linarith
    rw [sgn, if_neg (not_lt.mpr hx.le), if_neg (ne_of_gt hx), abs_of_pos hx,
      max_eq_right h2, one_mul, sub_zero]

theorem prox_norm1_base_dvec (l : List K) (t : K) :
    prox_norm1_base (NumCont.dvec l) t
      = .ok (.dvec (l.map (fun x => max (x - t) 0 - max (-x - t) 0))) := by
  simp only [prox_norm1_base, subScalar, NumCont.map, maxScalar, csub, List.map_map]
  rw [zipWith_sub_map_map]
  rfl

theorem prox_norm1_base_dmat (rows : List (List K)) (t : K) :
    prox_norm1_base (NumCont.dmat rows) t
      = .ok (.dmat (rows.map (fun r => r.map (fun x => max (x - t) 0 - max (-x - t) 0)))) := by
  simp only [prox_norm1_base, subScalar, NumCont.map, maxScalar, csub, List.map_map]
  have h1 : ((fun r : List K => r.map (fun x => max x 0)) ∘ (fun r : List K => r.map (fun x => x - t)))
      = (fun r : List K => r.map (fun x => max (x - t) 0)) := by
    funext r; simp [List.map_map, Function.comp]
  have h2 : ((fun r : List K => r.map (fun x => max x 0)) ∘ (fun r : List K => r.map (fun x => x - t))
        ∘ (fun r : List K => r.map (fun x => -x)))
      = (fun r : List K => r.map (fun x => max (-x - t) 0)) := by
    funext r; simp [List.map_map, Function.comp]
  rw [h1, h2, zipWith_sub_map_map2]

/-- C1 (amended to dense input): for every dense real vector or matrix `v` and every
step size `t > 0`, `prox_norm1_base v t` is elementwise soft-thresholding,
`sgn x * max (|x| - t) 0` in every coordinate, and the public `prox_norm1` with
default parameters maps `[3, -1, 0.5]` at `t = 1` to `[2, 0, 0]`.  (The claim's
sparse case fails on the code: see the counterexample theorem.) -/
theorem claim1_soft_threshold :
    (∀ (l : List K) (t : K), 0 < t →
      prox_norm1_base (NumCont.dvec l) t
        = .ok (.dvec (l.map (fun x => sgn x * max (|x| - t) 0)))) ∧
    (∀ (rows : List (List K)) (t : K), 0 < t →
      prox_norm1_base (NumCont.dmat rows) t
        = .ok (.dmat (rows.map (fun r => r.map (fun x => sgn x * max (|x| - t) 0))))) ∧
    prox_norm1 (NumCont.dvec [3, -1, 1/2]) 1 defaultParams
      = .ok (.dvec ([2, 0, 0] : List ℚ)) := by
  refine ⟨?_, ?_, ?_⟩
  · intro l t ht
    have hfun : (fun x : K => max (x - t) 0 - max (-x - t) 0)
        = fun x : K => sgn x * max (|x| - t) 0 :=
      funext (fun x => soft_threshold_scalar t x ht.le)
    rw [prox_norm1_base_dvec, hfun]
  · intro rows t ht
    have hfun : (fun x : K => max (x - t) 0 - max (-x - t) 0)
        = fun x : K => sgn x * max (|x| - t) 0 :=
      funext (fun x => soft_threshold_scalar t x ht.le)
    rw [prox_norm1_base_dmat, hfun]
  · rw [prox_norm1, prox_scale_default _ _ _ one_pos, prox_norm1_base_dvec]
    norm_num [max_def]

/-- Witness for C1: the soft-thresholding theorem applied at the concrete input
`[3, -1, 1/2]` with `t = 1`, evaluated. -/
theorem claim1_soft_threshold_witness :
    (0 : ℚ) < 1 ∧ prox_norm1_base (NumCont.dvec [3, -1, 1/2]) 1
      = .ok (.dvec ([2, 0, 0] : List ℚ)) := by
  refine ⟨one_pos, ?_⟩
  rw [claim1_soft_threshold.1 [3, -1, 1/2] 1 one_pos]
  norm_num [sgn, max_def, abs_eq_max_neg]

/-- Counterexample for C1 as stated: on a *sparse* input with `t = 1` the code does
not return the soft-thresholded container — scipy's sparse scalar subtraction
`v - t` raises `NotImplementedError`. -/
theorem claim1_sparse_counterexample :
    prox_norm1_base (NumCont.spmat [[3, -1, 1/2]]) 1
      = (.error .notImplemented : Except NumErr (NumCont ℚ)) ∧
    prox_norm1_base (NumCont.spmat [[3, -1, 1/2]]) 1
      ≠ (.ok (.spmat [[2, 0, 0]]) : Except NumErr (NumCont ℚ)) := by
  constructor
  · norm_num [prox_norm1_base, subScalar]
  · rw [show prox_norm1_base (NumCont.spmat [[3, -1, 1/2]]) 1
        = (.error .notImplemented : Except NumErr (NumCont ℚ)) from by
      norm_num [prox_norm1_base, subScalar]]
    exact fun hc => Except.noConfusion hc

/-- C9 (code bug): the spec requires sparse input to stay sparse and succeed, and the
code's explicit sparse `maximum` branch shows that intent, but scipy raises
`NotImplementedError` on the scalar subtraction `v - t` for every sparse `v` and
nonzero `t`.  Evaluation at the failing input: a sparse 1×3 matrix `[[1, 0, 3]]`
with `t = 1`. -/
theorem claim9_sparse_raises :
    prox_norm1_base (NumCont.spmat [[1, 0, 3]]) 1
      = (.error .notImplemented : Except NumErr (NumCont ℚ)) := by
  norm_num [prox_norm1_base, subScalar]

/-! ## L2 shrinkage -/

theorem prox_norm2_base_eq (v : NumCont K) (t : K) (f : K → K)
    (h : v.ndim = 1 ∨ v.ndim = 2) :
    prox_norm2_base v t f =
      if f (sumSqC v) = 0 then .ok (zerosLike v)
      else .ok (smul (max (1 - t / f (sumSqC v)) 0) v) := by
  rcases h with h | h <;> simp [prox_norm2_base, normOf, h]

/-- C2: for 1-D or 2-D input `v` with exact norm `f (sumSqC v)` (where `f` is a
square root valid at the sum of squares): a norm at most `t` yields exactly the zero
container of `v`'s shape and representation; a norm above `t` scales `v` by
`1 - t/‖v‖`, and the result's sum of squares is `(‖v‖ - t)²` (norm `‖v‖ - t`);
and the public `prox_norm2` maps `[3, 4]` at `t = 2` to `[1.8, 2.4]`. -/
theorem claim2_l2_shrinkage (v : NumCont K) (t : K) (f : K → K)
    (hnd : v.ndim = 1 ∨ v.ndim = 2) (ht : 0 < t) (hf : IsSqrtAt f (sumSqC v)) :
    (f (sumSqC v) ≤ t → prox_norm2_base v t f = .ok (zerosLike v)) ∧
    (t < f (sumSqC v) →
      prox_norm2_base v t f = .ok (smul (1 - t / f (sumSqC v)) v) ∧
      sumSqC (smul (1 - t / f (sumSqC v)) v) = (f (sumSqC v) - t) ^ 2) ∧
    prox_norm2 (NumCont.dvec [3, 4]) 2 (sqrtStub 5) defaultParams
      = .ok (.dvec ([9/5, 12/5] : List ℚ)) := by
  rw [prox_norm2_base_eq v t f hnd]
  refine ⟨?_, ?_, ?_⟩
  · intro hle
    by_cases h0 : f (sumSqC v) = 0
    · rw [if_pos h0]
    · rw [if_neg h0]
      have hpos : 0 < f (sumSqC v) := lt_of_le_of_ne hf.1 (Ne.symm h0)
      have h1 : 1 - t / f (sumSqC v) ≤ 0 := by
        have := (one_le_div hpos).mpr hle
        linarith
      rw [max_eq_right h1, smul_zero_cont]
  · intro hlt
    have hpos : 0 < f (sumSqC v) := lt_trans ht hlt
    have h0 : f (sumSqC v) ≠ 0 := ne_of_gt hpos
    have h1 : 0 ≤ 1 - t / f (sumSqC v) := by
      have := (div_lt_one hpos).mpr hlt
      linarith
    rw [if_neg h0, max_eq_left h1]
    refine ⟨rfl, ?_⟩
    rw [sumSqC_smul]
    obtain ⟨hfnn, hfsq⟩ := hf
    set a := f (sumSqC v) with ha
    rw [← hfsq]
    have hane : a ≠ 0 := h0
    field_simp
  · rw [prox_norm2, prox_scale_default _ _ _ two_pos,
      prox_norm2_base_eq (NumCont.dvec [3, 4]) 2 (sqrtStub 5) (Or.inl rfl)]
    norm_num [sqrtStub, smul, NumCont.map, max_def]

/-- Witness for C2: the shrinkage theorem applied at `v = [3, 4]`, `t = 2` with the
norm value 5, evaluated to `[9/5, 12/5]`. -/
theorem claim2_l2_shrinkage_witness :
    ((NumCont.dvec [3, 4] : NumCont ℚ).ndim = 1 ∨ (NumCont.dvec [3, 4] : NumCont ℚ).ndim = 2) ∧
    (0 : ℚ) < 2 ∧ IsSqrtAt (sqrtStub 5) (sumSqC (NumCont.dvec [3, 4] : NumCont ℚ)) ∧
    (2 : ℚ) < sqrtStub 5 (sumSqC (NumCont.dvec [3, 4] : NumCont ℚ)) ∧
    prox_norm2_base (NumCont.dvec [3, 4] : NumCont ℚ) 2 (sqrtStub 5)
      = .ok (.dvec [9/5, 12/5]) := by
  have hnd : (NumCont.dvec [3, 4] : NumCont ℚ).ndim = 1 ∨ (NumCont.dvec [3, 4] : NumCont ℚ).ndim = 2 :=
    Or.inl rfl
  have hf : IsSqrtAt (sqrtStub 5) (sumSqC (NumCont.dvec [3, 4] : NumCont ℚ)) := by
    constructor <;> norm_num [sqrtStub, sumSqC, sumSqL, NumCont.entries]
  have hlt : (2 : ℚ) < sqrtStub 5 (sumSqC (NumCont.dvec [3, 4] : NumCont ℚ)) := by
    norm_num [sqrtStub]
  refine ⟨hnd, two_pos, hf, hlt, ?_⟩
  rw [(claim2_l2_shrinkage (NumCont.dvec [3, 4] : NumCont ℚ) 2 (sqrtStub 5) hnd two_pos hf).2.1 hlt |>.1]
  norm_num [sqrtStub, smul, NumCont.map, sumSqC, sumSqL, NumCont.entries]

/-- C8: an input of exact norm zero (1-D or 2-D) is defined behavior — the operator
returns the zero container of the same shape and representation, it does not raise. -/
theorem claim8_zero_norm_defined (v : NumCont K) (t : K) (f : K → K)
    (hnd : v.ndim = 1 ∨ v.ndim = 2) (ht : 0 < t)
    (h0 : sumSqC v = 0) (hf : IsSqrtAt f (sumSqC v)) :
    prox_norm2_base v t f = .ok (zerosLike v) := by
  have hf0 : f (sumSqC v) = 0 := by
    have h2 := hf.2
    rw [h0] at h2
    rw [h0]
    exact pow_eq_zero_iff two_ne_zero |>.mp h2
  rw [prox_norm2_base_eq v t f hnd, if_pos hf0]

/-- Witness for C8: the zero-norm theorem applied to the sparse zero 1×2 matrix. -/
theorem claim8_zero_norm_defined_witness :
    ((NumCont.spmat [[0, 0]] : NumCont ℚ).ndim = 1 ∨ (NumCont.spmat [[0, 0]] : NumCont ℚ).ndim = 2) ∧
    (0 : ℚ) < 1 ∧ sumSqC (NumCont.spmat [[0, 0]] : NumCont ℚ) = 0 ∧
    IsSqrtAt (sqrtStub 0) (sumSqC (NumCont.spmat [[0, 0]] : NumCont ℚ)) ∧
    prox_norm2_base (NumCont.spmat [[0, 0]] : NumCont ℚ) 1 (sqrtStub 0)
      = .ok (.spmat [[0, 0]]) := by
  have hnd : (NumCont.spmat [[0, 0]] : NumCont ℚ).ndim = 1 ∨ (NumCont.spmat [[0, 0]] : NumCont ℚ).ndim = 2 :=
    Or.inr rfl
  have h0 : sumSqC (NumCont.spmat [[0, 0]] : NumCont ℚ) = 0 := by
    norm_num [sumSqC, sumSqL, NumCont.entries]
  have hf : IsSqrtAt (sqrtStub 0) (sumSqC (NumCont.spmat [[0, 0]] : NumCont ℚ)) := by
    constructor <;> norm_num [sqrtStub, h0]
  refine ⟨hnd, one_pos, h0, hf, ?_⟩
  rw [claim8_zero_norm_defined (NumCont.spmat [[0, 0]] : NumCont ℚ) 1 (sqrtStub 0) hnd one_pos h0 hf]
  rfl

/-- C10: on input of dimension other than 1 or 2 (for instance 0-D or 3-D), the local
norm variable is never bound, so the subsequent read raises `UnboundLocalError` —
the call neither returns a value nor fails with a validation error. -/
theorem claim10_unbound_local (v : NumCont K) (t : K) (f : K → K)
    (h1 : v.ndim ≠ 1) (h2 : v.ndim ≠ 2) :
    prox_norm2_base v t f = .error .unboundLocal ∧
    NumErr.unboundLocal ≠ NumErr.valueErr := by
  refine ⟨?_, by simp⟩
  simp [prox_norm2_base, normOf, h1, h2]

/-- Witness for C10: the unbound-local theorem applied to a 0-D input and a 3-D input. -/
theorem claim10_unbound_local_witness :
    ((NumCont.darr0 5 : NumCont ℚ).ndim ≠ 1 ∧ (NumCont.darr0 5 : NumCont ℚ).ndim ≠ 2 ∧
      prox_norm2_base (NumCont.darr0 5 : NumCont ℚ) 1 (sqrtStub 5) = .error .unboundLocal) ∧
    ((NumCont.darr3 [[[1]]] : NumCont ℚ).ndim ≠ 1 ∧ (NumCont.darr3 [[[1]]] : NumCont ℚ).ndim ≠ 2 ∧
      prox_norm2_base (NumCont.darr3 [[[1]]] : NumCont ℚ) 1 (sqrtStub 5) = .error .unboundLocal) := by
  constructor
  · exact ⟨by simp [NumCont.ndim], by simp [NumCont.ndim],
      (claim10_unbound_local (NumCont.darr0 5 : NumCont ℚ) 1 (sqrtStub 5)
        (by simp [NumCont.ndim]) (by simp [NumCont.ndim])).1⟩
  · exact ⟨by simp [NumCont.ndim], by simp [NumCont.ndim],
      (claim10_unbound_local (NumCont.darr3 [[[1]]] : NumCont ℚ) 1 (sqrtStub 5)
        (by simp [NumCont.ndim]) (by simp [NumCont.ndim])).1⟩

/-! ## Identity composition and step-size validation -/

/-- C6: called with the default parameters `a = 1, b = 0, c = 0, d = 0`, each of the
five public operators returns exactly the same output as its corresponding base
operator at the same `v` and `t` (identity composition law); errors of the base
operator propagate unchanged as well. -/
theorem claim6_identity_composition (v B : NumCont K) (t : K) (f : K → K)
    (svd : List (List K) → SVDFactors K) (ht : 0 < t) :
    prox_norm1 v t defaultParams = prox_norm1_base v t ∧
    prox_norm2 v t f defaultParams = prox_norm2_base v t f ∧
    prox_norm_inf v t defaultParams = prox_norm_inf_base v t ∧
    prox_norm_nuc B t svd defaultParams = prox_norm_nuc_base B t svd ∧
    prox_group_lasso B t f defaultParams = prox_group_lasso_base B t f :=
  ⟨prox_scale_default _ v t ht, prox_scale_default _ v t ht, prox_scale_default _ v t ht,
    prox_scale_default _ B t ht, prox_scale_default _ B t ht⟩

/-- Witness for C6: the identity composition law evaluated at concrete inputs
(`[3, -1, 1/2]` for the vector operators, `[[2]]` for the matrix operators, `t = 1`). -/
theorem claim6_identity_composition_witness :
    (0 : ℚ) < 1 ∧
    prox_norm1 (NumCont.dvec [3, -1, 1/2]) 1 defaultParams
      = prox_norm1_base (NumCont.dvec [3, -1, 1/2] : NumCont ℚ) 1 ∧
    prox_norm2 (NumCont.dvec [3, -1, 1/2]) 1 (sqrtStub 5) defaultParams
      = prox_norm2_base (NumCont.dvec [3, -1, 1/2] : NumCont ℚ) 1 (sqrtStub 5) ∧
    prox_norm_inf (NumCont.dvec [3, -1, 1/2]) 1 defaultParams
      = prox_norm_inf_base (NumCont.dvec [3, -1, 1/2] : NumCont ℚ) 1 ∧
    prox_norm_nuc (NumCont.dmat [[2]]) 1 svdStub defaultParams
      = prox_norm_nuc_base (NumCont.dmat [[2]] : NumCont ℚ) 1 svdStub ∧
    prox_group_lasso (NumCont.dmat [[2]]) 1 (sqrtStub 2) defaultParams
      = prox_group_lasso_base (NumCont.dmat [[2]] : NumCont ℚ) 1 (sqrtStub 2) := by
  have h := claim6_identity_composition (NumCont.dvec [3, -1, 1/2] : NumCont ℚ)
    (NumCont.dmat [[2]] : NumCont ℚ) 1 (sqrtStub 5) svdStub one_pos
  have h2 := claim6_identity_composition (NumCont.dvec [3, -1, 1/2] : NumCont ℚ)
    (NumCont.dmat [[2]] : NumCont ℚ) 1 (sqrtStub 2) svdStub one_pos
  exact ⟨one_pos, h.1, h.2.1, h.2.2.1, h.2.2.2.1, h2.2.2.2.2⟩

/-- C7: every public operator rejects a non-positive step size with a validation
failure (`ValueError`) before any computation, for any parameter bundle — the
violation is never silently corrected or clamped. -/
theorem claim7_step_size_validation (v B : NumCont K) (t : K) (f : K → K)
    (svd : List (List K) → SVDFactors K) (p : ProxParams K) (ht : t ≤ 0) :
    prox_norm1 v t p = .error .valueErr ∧
    prox_norm2 v t f p = .error .valueErr ∧
    prox_norm_inf v t p = .error .valueErr ∧
    prox_norm_nuc B t svd p = .error .valueErr ∧
    prox_group_lasso B t f p = .error .valueErr := by
  refine ⟨?_, ?_, ?_, ?_, ?_⟩ <;>
    simp [prox_norm1, prox_norm2, prox_norm_inf, prox_norm_nuc, prox_group_lasso,
      prox_scale, ht]

/-- Witness for C7: the validation theorem evaluated at `t = 0` and `t = -1`. -/
theorem claim7_step_size_validation_witness :
    ((0 : ℚ) ≤ 0 ∧ prox_norm1 (NumCont.dvec [1]) 0 defaultParams
      = (.error .valueErr : Except NumErr (NumCont ℚ))) ∧
    ((-1 : ℚ) ≤ 0 ∧ prox_norm2 (NumCont.dvec [1]) (-1) (sqrtStub 1) defaultParams
      = (.error .valueErr : Except NumErr (NumCont ℚ))) := by
  constructor
  · exact ⟨le_refl 0, (claim7_step_size_validation (NumCont.dvec [1] : NumCont ℚ)
      (NumCont.dmat [[1]]) 0 (sqrtStub 1) svdStub defaultParams (le_refl 0)).1⟩
  · exact ⟨by norm_num, (claim7_step_size_validation (NumCont.dvec [1] : NumCont ℚ)
      (NumCont.dmat [[1]]) (-1) (sqrtStub 1) svdStub defaultParams (by norm_num)).2.1⟩

/-! ## Nuclear norm -/

/-- C4 (amended to dense input): for a dense matrix `B` with singular value
decomposition `U, s, Vt`, the operator returns the dense matrix
`U · diag(max(s - t, 0)) · Vᵗ`; the shrunk singular values `max(σᵢ - t, 0)` are
nonnegative and still descending, and the factors `U`, `Vt` are unchanged (and hence
still orthonormal), so the reconstruction is an SVD of the result with singular
values `max(σᵢ(B) - t, 0)`.  (The claim's "any representation" fails on the code:
see the counterexample theorem.) -/
theorem claim4_nuclear_shrinkage (rows : List (List K)) (t : K)
    (svd : List (List K) → SVDFactors K) (ht : 0 < t)
    (hsvd : IsSVDOf rows (svd rows)) :
    prox_norm_nuc_base (NumCont.dmat rows) t svd
      = .ok (.dmat (matmulL
          (matmulL (svd rows).U (diagL ((svd rows).s.map (fun x => max (x - t) 0))))
          (svd rows).Vt)) ∧
    (∀ x ∈ (svd rows).s.map (fun x => max (x - t) 0), 0 ≤ x) ∧
    List.Sorted (· ≥ ·) ((svd rows).s.map (fun x => max (x - t) 0)) ∧
    matmulL (transposeFix (svd rows).U (svd rows).s.length) (svd rows).U
      = idMat (svd rows).s.length ∧
    matmulL (svd rows).Vt (transposeFix (svd rows).Vt (colsCount (svd rows).Vt))
      = idMat (svd rows).s.length := by
  refine ⟨rfl, ?_, ?_, hsvd.2.1, hsvd.2.2.1⟩
  · intro x hx
    rw [List.mem_map] at hx
    obtain ⟨a, -, rfl⟩ := hx
    exact le_max_right _ 0
  · exact List.Pairwise.map _
      (fun a b hab => max_le_max (sub_le_sub_right hab t) le_rfl) hsvd.2.2.2.1

/-- Witness for C4: the nuclear shrinkage theorem applied to the 1×1 matrix `[[2]]`
with its SVD `(1)·(2)·(1)` and `t = 1`, evaluated to `[[1]]`. -/
theorem claim4_nuclear_shrinkage_witness :
    (0 : ℚ) < 1 ∧ IsSVDOf [[2]] (svdStub [[2]]) ∧
    prox_norm_nuc_base (NumCont.dmat [[2]] : NumCont ℚ) 1 svdStub = .ok (.dmat [[1]]) := by
  have hsvd : IsSVDOf [[(2 : ℚ)]] (svdStub [[2]]) := by
    refine ⟨?_, ?_, ?_, ?_, ?_⟩
    · norm_num [svdStub, matmulL, diagL, colsCount, colL, dotL, transposeFix,
        List.range_succ]
    · norm_num [svdStub, matmulL, idMat, colsCount, colL, dotL, transposeFix,
        List.range_succ]
    · norm_num [svdStub, matmulL, idMat, colsCount, colL, dotL, transposeFix,
        List.range_succ]
    · simp [svdStub]
    · norm_num [svdStub]
  refine ⟨one_pos, hsvd, ?_⟩
  rw [(claim4_nuclear_shrinkage [[(2 : ℚ)]] 1 svdStub one_pos hsvd).1]
  norm_num [svdStub, matmulL, diagL, colsCount, colL, dotL, transposeFix,
    List.range_succ, max_def]

/-- Counterexample for C4 as stated: on a *sparse* matrix the code does not return the
dense shrunk reconstruction — `np.linalg.svd` raises `LinAlgError` on a scipy sparse
argument. -/
theorem claim4_sparse_counterexample :
    prox_norm_nuc_base (NumCont.spmat [[2]] : NumCont ℚ) 1 svdStub = .error .linAlg ∧
    prox_norm_nuc_base (NumCont.spmat [[2]] : NumCont ℚ) 1 svdStub ≠ .ok (.dmat [[1]]) :=
  ⟨rfl, fun hc => Except.noConfusion hc⟩

/-! ## Group lasso -/

theorem collectEx_ok {α β : Type} (l : List α) (g : α → Except NumErr β) (h : α → β)
    (hg : ∀ a ∈ l, g a = .ok (h a)) : collectEx l g = .ok (l.map h) := by
  induction l with
  | nil => rfl
  | cons a l ih =>
    have h1 := hg a (List.mem_cons_self a l)
    have h2 := ih (fun b hb => hg b (List.mem_cons_of_mem a hb))
    simp only [collectEx, h1, h2, List.map_cons]

theorem map_const_zero (c : List K) : c.map (fun _ => (0 : K)) = List.replicate c.length 0 :=
  List.map_const' c 0

theorem prox_norm2_base_dvec (c : List K) (t : K) (f : K → K) :
    prox_norm2_base (NumCont.dvec c) t f = .ok (.dvec (l2shrinkVec f t c)) := by
  rw [prox_norm2_base_eq (NumCont.dvec c) t f (Or.inl rfl), l2shrinkVec]
  by_cases h0 : f (sumSqL c) = 0
  · rw [if_pos (show f (sumSqC (NumCont.dvec c)) = 0 from h0), if_pos h0]
    show Except.ok (NumCont.dvec (c.map (fun _ => 0))) = _
    rw [map_const_zero]
  · rw [if_neg (show ¬ f (sumSqC (NumCont.dvec c)) = 0 from h0), if_neg h0]
    rfl

theorem flatten_map_singleton (c : List K) : (c.map (fun x => [x])).flatten = c := by
  induction c with
  | nil => rfl
  | cons a c ih => rw [List.map_cons, List.flatten_cons, ih, List.singleton_append]

theorem prox_norm2_base_spmat_col (c : List K) (t : K) (f : K → K) :
    prox_norm2_base (NumCont.spmat (c.map (fun x => [x]))) t f
      = .ok (.spmat ((l2shrinkVec f t c).map (fun x => [x]))) := by
  rw [prox_norm2_base_eq (NumCont.spmat (c.map (fun x => [x]))) t f (Or.inr rfl)]
  have hS : sumSqC (NumCont.spmat (c.map (fun x => [x]))) = sumSqL c := by
    show sumSqL (c.map (fun x => [x])).flatten = sumSqL c
    rw [flatten_map_singleton]
  rw [hS, l2shrinkVec]
  by_cases h0 : f (sumSqL c) = 0
  · rw [if_pos h0, if_pos h0]
    show Except.ok (NumCont.spmat ((c.map (fun x => [x])).map (fun r => r.map (fun _ => (0 : K)))))
        = Except.ok (NumCont.spmat ((List.replicate c.length (0 : K)).map (fun x => [x])))
    rw [List.map_map, List.map_replicate]
    have h1 : ((fun r : List K => r.map (fun _ => (0 : K))) ∘ (fun x : K => [x]))
        = (fun _ : K => [(0 : K)]) := rfl
    rw [h1, List.map_const']
  · rw [if_neg h0, if_neg h0]
    show Except.ok (NumCont.spmat ((c.map (fun x => [x])).map
          (fun r => r.map (fun x => max (1 - t / f (sumSqL c)) 0 * x))))
        = Except.ok (NumCont.spmat ((c.map (fun x => max (1 - t / f (sumSqL c)) 0 * x)).map
          (fun x => [x])))
    rw [List.map_map, List.map_map]
    rfl

theorem range_map_getD (l : List K) :
    (List.range l.length).map (fun i => l.getD i 0) = l := by
  apply List.ext_getElem (by simp)
  intro i h1 h2
  simp only [List.getElem_map, List.getElem_range]
  exact List.getD_eq_getElem l 0 h2

theorem getD_map_singleton (c : List K) (i : ℕ) (hi : i < c.length) :
    (c.map (fun x => [x])).getD i [] = [c.getD i 0] := by
  rw [List.getD_eq_getElem _ _ (by simpa using hi), List.getElem_map,
    List.getD_eq_getElem c 0 hi]

theorem hstack_singleton (cols : List (List K)) (m : ℕ)
    (h : ∀ c ∈ cols, c.length = m) :
    hstackRows (cols.map (fun c => c.map (fun x => [x]))) m = transposeFix cols m := by
  unfold hstackRows transposeFix
  apply List.map_congr_left
  intro i hi
  rw [List.map_map]
  have h1 : ∀ c ∈ cols, ((fun M : List (List K) => M.getD i []) ∘ (fun c : List K => c.map (fun x => [x]))) c
      = [c.getD i 0] := by
    intro c hc
    have : i < c.length := by rw [h c hc]; exact List.mem_range.mp hi
    exact getD_map_singleton c i this
  rw [List.map_congr_left h1]
  have h2 : (fun c : List K => [c.getD i 0]) = (fun x : K => [x]) ∘ (fun c : List K => c.getD i 0) := rfl
  rw [h2, ← List.map_map, flatten_map_singleton]

theorem colL_length (M : List (List K)) (j : ℕ) : (colL M j).length = M.length := by
  simp [colL]

theorem l2shrinkVec_length (f : K → K) (t : K) (c : List K) :
    (l2shrinkVec f t c).length = c.length := by
  unfold l2shrinkVec
  split <;> simp

theorem getD_range_map {β : Type} [Inhabited β] (n j : ℕ) (F : ℕ → β) (d : β) (hj : j < n) :
    ((List.range n).map F).getD j d = F j := by
  rw [List.getD_eq_getElem _ _ (by simpa using hj), List.getElem_map, List.getElem_range]

theorem colL_transposeFix (M : List (List K)) (m j : ℕ) (hj : j < M.length)
    (hlen : (M.getD j []).length = m) :
    colL (transposeFix M m) j = M.getD j [] := by
  unfold colL transposeFix
  rw [List.map_map]
  have h1 : ∀ i ∈ List.range m, ((fun r : List K => r.getD j 0) ∘ (fun i : ℕ => M.map (fun r => r.getD i 0))) i
      = (M.getD j []).getD i 0 := by
    intro i hi
    show (M.map (fun r => r.getD i 0)).getD j 0 = (M.getD j []).getD i 0
    rw [List.getD_eq_getElem _ _ (by simpa using hj), List.getElem_map,
      List.getD_eq_getElem M [] hj]
  rw [List.map_congr_left h1]
  conv_rhs => rw [← range_map_getD (M.getD j [])]
  rw [hlen]

theorem prox_group_lasso_base_dmat (rows : List (List K)) (t : K) (f : K → K)
    (hn : 0 < colsCount rows) (ht : 0 < t) :
    prox_group_lasso_base (NumCont.dmat rows) t f
      = .ok (.dmat (groupLassoPayload rows t f)) := by
  have hcols : collectEx (List.range (colsCount rows))
      (fun j => prox_norm2 (NumCont.dvec (colL rows j)) t f defaultParams)
      = .ok ((List.range (colsCount rows)).map
          (fun j => NumCont.dvec (l2shrinkVec f t (colL rows j)))) := by
    apply collectEx_ok
    intro j hj
    rw [prox_norm2, prox_scale_default _ _ _ ht, prox_norm2_base_dvec]
  have hne : ¬ ((List.range (colsCount rows)).map
      (fun j => NumCont.dvec (l2shrinkVec f t (colL rows j)))) = [] := by
    simp [List.map_eq_nil_iff, List.range_eq_nil, Nat.pos_iff_ne_zero.mp hn]
  simp only [prox_group_lasso_base, hcols, if_neg hne]
  rw [List.map_map]
  rfl

theorem prox_group_lasso_base_spmat (rows : List (List K)) (t : K) (f : K → K)
    (hn : 0 < colsCount rows) (ht : 0 < t) :
    prox_group_lasso_base (NumCont.spmat rows) t f
      = .ok (.spmat (groupLassoPayload rows t f)) := by
  have hcoleq : ∀ j : ℕ, colMat rows j = (colL rows j).map (fun x => [x]) := by
    intro j
    unfold colMat colL
    rw [List.map_map]
    rfl
  have hcols : collectEx (List.range (colsCount rows))
      (fun j => prox_norm2 (NumCont.spmat (colMat rows j)) t f defaultParams)
      = .ok ((List.range (colsCount rows)).map
          (fun j => NumCont.spmat ((l2shrinkVec f t (colL rows j)).map (fun x => [x])))) := by
    apply collectEx_ok
    intro j hj
    rw [prox_norm2, prox_scale_default _ _ _ ht, hcoleq j, prox_norm2_base_spmat_col]
  have hne : ¬ ((List.range (colsCount rows)).map
      (fun j => NumCont.spmat ((l2shrinkVec f t (colL rows j)).map (fun x => [x])))) = [] := by
    simp [List.map_eq_nil_iff, List.range_eq_nil, Nat.pos_iff_ne_zero.mp hn]
  simp only [prox_group_lasso_base, hcols, if_neg hne]
  rw [List.map_map]
  have hcomp : (matOf ∘ fun j : ℕ => NumCont.spmat ((l2shrinkVec f t (colL rows j)).map (fun x => [x])))
      = fun j : ℕ => (l2shrinkVec f t (colL rows j)).map (fun x => [x]) := rfl
  rw [hcomp]
  have hmaps : (List.range (colsCount rows)).map
        (fun j => (l2shrinkVec f t (colL rows j)).map (fun x => [x]))
      = ((List.range (colsCount rows)).map (fun j => l2shrinkVec f t (colL rows j))).map
        (fun c => c.map (fun x => [x])) := by
    rw [List.map_map]
    rfl
  rw [hmaps, hstack_singleton _ rows.length]
  · rfl
  · intro c hc
    rw [List.mem_map] at hc
    obtain ⟨j, -, rfl⟩ := hc
    rw [l2shrinkVec_length, colL_length]

/-- C5 (amended to input with at least one column): for every matrix `B` (dense or
sparse, with at least one column) and `t > 0`, the result is the matrix of the
original orientation whose column `j` is the L2 proximal operator applied to column
`j` of `B`, for every `j` independently; a sparse input is reassembled by the sparse
concatenation `sparse.hstack` into a sparse result (same values, sparse tag), a dense
input by `np.vstack(...).T`.  (On a zero-column matrix both stacking calls raise:
see the counterexample theorem.) -/
theorem claim5_group_lasso (rows : List (List K)) (t : K) (f : K → K)
    (hrect : ∀ r ∈ rows, r.length = colsCount rows)
    (hn : 0 < colsCount rows) (ht : 0 < t) :
    prox_group_lasso_base (NumCont.dmat rows) t f
      = .ok (.dmat (groupLassoPayload rows t f)) ∧
    prox_group_lasso_base (NumCont.spmat rows) t f
      = .ok (.spmat (groupLassoPayload rows t f)) ∧
    ∀ j < colsCount rows,
      prox_norm2_base (NumCont.dvec (colL rows j)) t f
        = .ok (.dvec (colL (groupLassoPayload rows t f) j)) := by
  refine ⟨prox_group_lasso_base_dmat rows t f hn ht,
    prox_group_lasso_base_spmat rows t f hn ht, ?_⟩
  intro j hj
  have hcol : colL (groupLassoPayload rows t f) j = l2shrinkVec f t (colL rows j) := by
    unfold groupLassoPayload
    rw [colL_transposeFix _ rows.length j (by simpa using hj)
        (by rw [getD_range_map _ _ _ _ hj, l2shrinkVec_length, colL_length]),
      getD_range_map _ _ _ _ hj]
  rw [hcol, prox_norm2_base_dvec]

/-- Witness for C5: the group-lasso theorem applied to the 2×2 matrix
`[[3, 1], [4, 0]]` with `t = 2`, evaluated in both representations. -/
theorem claim5_group_lasso_witness :
    (∀ r ∈ ([[3, 1], [4, 0]] : List (List ℚ)), r.length = colsCount ([[3, 1], [4, 0]] : List (List ℚ))) ∧
    0 < colsCount ([[3, 1], [4, 0]] : List (List ℚ)) ∧ (0 : ℚ) < 2 ∧
    prox_group_lasso_base (NumCont.dmat [[3, 1], [4, 0]] : NumCont ℚ) 2 (sqrtStub 5)
      = .ok (.dmat [[9/5, 3/5], [12/5, 0]]) ∧
    prox_group_lasso_base (NumCont.spmat [[3, 1], [4, 0]] : NumCont ℚ) 2 (sqrtStub 5)
      = .ok (.spmat [[9/5, 3/5], [12/5, 0]]) := by
  have hrect : ∀ r ∈ ([[3, 1], [4, 0]] : List (List ℚ)),
      r.length = colsCount ([[3, 1], [4, 0]] : List (List ℚ)) := by
    intro r hr
    simp only [List.mem_cons, List.not_mem_nil, or_false] at hr
    rcases hr with rfl | rfl <;> rfl
  have hn : 0 < colsCount ([[3, 1], [4, 0]] : List (List ℚ)) := by norm_num [colsCount]
  have h := claim5_group_lasso ([[3, 1], [4, 0]] : List (List ℚ)) 2 (sqrtStub 5) hrect hn two_pos
  refine ⟨hrect, hn, two_pos, ?_, ?_⟩
  · rw [h.1]
    norm_num [groupLassoPayload, transposeFix, colL, l2shrinkVec, sumSqL, sqrtStub,
      colsCount, List.range_succ, max_def]
  · rw [h.2.1]
    norm_num [groupLassoPayload, transposeFix, colL, l2shrinkVec, sumSqL, sqrtStub,
      colsCount, List.range_succ, max_def]

/-- Counterexample for C5 as stated: on a 2×0 matrix (no columns) the code raises
`ValueError` from stacking an empty list of blocks rather than returning the empty
matrix of the original orientation. -/
theorem claim5_empty_counterexample :
    prox_group_lasso_base (NumCont.dmat [[], []] : NumCont ℚ) 1 (sqrtStub 1)
      = .error .valueErr ∧
    prox_group_lasso_base (NumCont.dmat [[], []] : NumCont ℚ) 1 (sqrtStub 1)
      ≠ .ok (.dmat [[], []]) :=
  ⟨rfl, fun hc => Except.noConfusion hc⟩

/-! ## The sorted-threshold L1-ball projection is the Euclidean projection -/

theorem absDesc_sorted (v : List K) : List.Sorted (· ≥ ·) (absDesc v) :=
  List.sorted_insertionSort _ _

theorem absDesc_perm (v : List K) : List.Perm (absDesc v) (v.map (fun x => |x|)) :=
  List.perm_insertionSort _ _

theorem absDesc_nonneg (v : List K) : ∀ x ∈ absDesc v, 0 ≤ x := by
  intro x hx
  have := (absDesc_perm v).mem_iff.mp hx
  rw [List.mem_map] at this
  obtain ⟨a, -, rfl⟩ := this
  exact abs_nonneg a

theorem absDesc_sum (v : List K) : (absDesc v).sum = l1norm v :=
  (absDesc_perm v).sum_eq

theorem absDesc_length (v : List K) : (absDesc v).length = v.length := by
  rw [(absDesc_perm v).length_eq, List.length_map]

theorem foldr_max_le (l : List ℕ) (x : ℕ) (hx : x ∈ l) : x ≤ l.foldr max 0 := by
  induction l with
  | nil => cases hx
  | cons a l ih =>
    rw [List.foldr_cons]
    rcases List.mem_cons.mp hx with rfl | h
    · exact le_max_left _ _
    · exact le_trans (ih h) (le_max_right _ _)

theorem foldr_max_mem (l : List ℕ) : l.foldr max 0 ∈ l ∨ l.foldr max 0 = 0 := by
  induction l with
  | nil => right; rfl
  | cons a l ih =>
    rw [List.foldr_cons]
    rcases le_total a (l.foldr max 0) with h | h
    · rw [max_eq_right h]
      rcases ih with h2 | h2
      · exact Or.inl (List.mem_cons_of_mem a h2)
      · rw [h2]
        right; rfl
    · rw [max_eq_left h]
      exact Or.inl (List.mem_cons_self a l)

theorem goodB_zero (u : List K) (hu : u ≠ []) : goodB u 0 = true := by
  cases u with
  | nil => exact absurd rfl hu
  | cons a u =>
    rw [goodB]
    simp only [decide_eq_true_eq, Nat.cast_zero]
    rw [show cumSum (a :: u) (0 + 1) = a from by simp [cumSum]]
    rw [List.getD_cons_zero]
    have : a * ((0 : K) + 1) = a := by ring
    rw [this]
    linarith

theorem rho_lt_length (u : List K) (hu : u ≠ []) :
    rhoIdx u < u.length ∧ goodB u (rhoIdx u) = true := by
  have h0 : 0 ∈ (List.range u.length).filter (fun j => goodB u j) := by
    rw [List.mem_filter, List.mem_range]
    refine ⟨?_, goodB_zero u hu⟩
    cases u with
    | nil => exact absurd rfl hu
    | cons a u => simp
  have hmem : rhoIdx u ∈ (List.range u.length).filter (fun j => goodB u j) := by
    rcases foldr_max_mem ((List.range u.length).filter (fun j => goodB u j)) with h | h
    · exact h
    · rw [rhoIdx, h]
      exact h0
  rw [List.mem_filter, List.mem_range] at hmem
  exact hmem

theorem rho_max (u : List K) (j : ℕ) (hj : j < u.length) (hg : goodB u j = true) :
    j ≤ rhoIdx u := by
  apply foldr_max_le
  rw [List.mem_filter, List.mem_range]
  exact ⟨hj, hg⟩

theorem cast_succ_pos (j : ℕ) : (0 : K) < (j : K) + 1 := by positivity

theorem theta_lt_at_rho (u : List K) (hu : u ≠ []) :
    thetaOf u < u.getD (rhoIdx u) 0 := by
  have hg := (rho_lt_length u hu).2
  rw [goodB, decide_eq_true_eq] at hg
  rw [thetaOf, div_lt_iff₀ (cast_succ_pos (rhoIdx u))]
  exact hg

theorem getD_succ_le_theta (u : List K) (hu : u ≠ []) (h : rhoIdx u + 1 < u.length) :
    u.getD (rhoIdx u + 1) 0 ≤ thetaOf u := by
  have hng : ¬ (cumSum u (rhoIdx u + 1 + 1) - 1
      < u.getD (rhoIdx u + 1) 0 * ((↑(rhoIdx u + 1) : K) + 1)) := by
    intro hcon
    have hg : goodB u (rhoIdx u + 1) = true := by
      rw [goodB, decide_eq_true_eq]
      exact hcon
    have := rho_max u (rhoIdx u + 1) h hg
    omega
  push_neg at hng
  have hsum : cumSum u (rhoIdx u + 1 + 1)
      = cumSum u (rhoIdx u + 1) + u.getD (rhoIdx u + 1) 0 := by
    rw [cumSum, cumSum, List.sum_take_succ u (rhoIdx u + 1) h]
    rw [List.getD_eq_getElem u 0 h]
  rw [hsum] at hng
  rw [thetaOf, le_div_iff₀ (cast_succ_pos (rhoIdx u))]
  push_cast at hng
  linarith

theorem getD_mem_of_lt (u : List K) (i : ℕ) (hi : i < u.length) : u.getD i 0 ∈ u := by
  rw [List.getD_eq_getElem u 0 hi]
  exact List.getElem_mem hi

theorem theta_nonneg (u : List K) (hpos : ∀ x ∈ u, 0 ≤ x) (hsum : 1 < u.sum) :
    0 ≤ thetaOf u := by
  have hu : u ≠ [] := by
    intro h
    rw [h] at hsum
    simp at hsum
    linarith
  rcases lt_or_ge (rhoIdx u + 1) u.length with h | h
  · have h1 := getD_succ_le_theta u hu h
    have h2 : 0 ≤ u.getD (rhoIdx u + 1) 0 := hpos _ (getD_mem_of_lt u _ h)
    linarith
  · have hlen : rhoIdx u + 1 = u.length := by
      have := (rho_lt_length u hu).1
      omega
    have hS : cumSum u (rhoIdx u + 1) = u.sum := by
      rw [cumSum, hlen, List.take_length]
    rw [thetaOf, hS]
    apply le_of_lt
    apply div_pos
    · linarith
    · exact cast_succ_pos (rhoIdx u)

theorem sorted_getD_le (u : List K) (hsort : List.Sorted (· ≥ ·) u) (i j : ℕ)
    (hij : i ≤ j) (hj : j < u.length) : u.getD j 0 ≤ u.getD i 0 := by
  have hi : i < u.length := lt_of_le_of_lt hij hj
  rw [List.getD_eq_getElem u 0 hj, List.getD_eq_getElem u 0 hi]
  have := List.Sorted.rel_get_of_le hsort
    (show (⟨i, hi⟩ : Fin u.length) ≤ ⟨j, hj⟩ from hij)
  simpa using this

theorem theta_lt_of_le_rho (u : List K) (hsort : List.Sorted (· ≥ ·) u) (hu : u ≠ [])
    (i : ℕ) (hiρ : i ≤ rhoIdx u) : thetaOf u < u.getD i 0 :=
  lt_of_lt_of_le (theta_lt_at_rho u hu)
    (sorted_getD_le u hsort i (rhoIdx u) hiρ (rho_lt_length u hu).1)

theorem le_theta_of_gt_rho (u : List K) (hsort : List.Sorted (· ≥ ·) u) (hu : u ≠ [])
    (i : ℕ) (hρi : rhoIdx u < i) (hi : i < u.length) : u.getD i 0 ≤ thetaOf u := by
  have h1 : rhoIdx u + 1 < u.length := by omega
  exact le_trans (sorted_getD_le u hsort (rhoIdx u + 1) i hρi hi)
    (getD_succ_le_theta u hu h1)

theorem sum_map_sub_const (l : List K) (θ : K) :
    (l.map (fun x => x - θ)).sum = l.sum - l.length * θ := by
  induction l with
  | nil => simp
  | cons a l ih =>
    simp only [List.map_cons, List.sum_cons, List.length_cons, ih]
    push_cast
    ring

theorem sum_max_theta (u : List K) (hsort : List.Sorted (· ≥ ·) u)
    (hpos : ∀ x ∈ u, 0 ≤ x) (hsum : 1 < u.sum) :
    (u.map (fun x => max (x - thetaOf u) 0)).sum = 1 := by
  have hu : u ≠ [] := by
    intro h
    rw [h] at hsum
    simp at hsum
    linarith
  have hρlen : rhoIdx u < u.length := (rho_lt_length u hu).1
  set θ := thetaOf u with hθdef
  have htake : ∀ x ∈ u.take (rhoIdx u + 1), θ < x := by
    intro x hx
    rw [List.mem_iff_getElem] at hx
    obtain ⟨i, hilen, rfl⟩ := hx
    have h1 : i ≤ rhoIdx u := by
      simp only [List.length_take] at hilen
      omega
    have h2 : i < u.length := by
      simp only [List.length_take] at hilen
      omega
    have heq : (u.take (rhoIdx u + 1))[i] = u[i] := by simp
    rw [heq, ← List.getD_eq_getElem u 0 h2]
    rw [hθdef]
    exact theta_lt_of_le_rho u hsort hu i h1
  have hdrop : ∀ x ∈ u.drop (rhoIdx u + 1), x ≤ θ := by
    intro x hx
    rw [List.mem_iff_getElem] at hx
    obtain ⟨i, hilen, rfl⟩ := hx
    have h2 : rhoIdx u + 1 + i < u.length := by
      simp only [List.length_drop] at hilen
      omega
    have heq : (u.drop (rhoIdx u + 1))[i] = u[rhoIdx u + 1 + i] := by simp
    rw [heq, ← List.getD_eq_getElem u 0 h2]
    rw [hθdef]
    exact le_theta_of_gt_rho u hsort hu (rhoIdx u + 1 + i) (by omega) h2
  conv_lhs => rw [← List.take_append_drop (rhoIdx u + 1) u]
  rw [List.map_append, List.sum_append]
  have h1 : (u.take (rhoIdx u + 1)).map (fun x => max (x - θ) 0)
      = (u.take (rhoIdx u + 1)).map (fun x => x - θ) :=
    List.map_congr_left (fun x hx => max_eq_left (by linarith [htake x hx]))
  have h2 : ((u.drop (rhoIdx u + 1)).map (fun x => max (x - θ) 0)).sum = 0 := by
    have heq : (u.drop (rhoIdx u + 1)).map (fun x => max (x - θ) 0)
        = (u.drop (rhoIdx u + 1)).map (fun _ => 0) :=
      List.map_congr_left (fun x hx => max_eq_right (by linarith [hdrop x hx]))
    rw [heq, List.map_const']
    simp
  rw [h1, h2, sum_map_sub_const, add_zero]
  have hlen : (u.take (rhoIdx u + 1)).length = rhoIdx u + 1 := by
    simp only [List.length_take]
    omega
  have hS : (u.take (rhoIdx u + 1)).sum = cumSum u (rhoIdx u + 1) := rfl
  rw [hlen, hS, hθdef, thetaOf]
  have hne : ((rhoIdx u : K) + 1) ≠ 0 := ne_of_gt (cast_succ_pos (rhoIdx u))
  push_cast
  field_simp

theorem one_lt_sum_absDesc (v : List K) (hv : 1 < l1norm v) : 1 < (absDesc v).sum := by
  rw [absDesc_sum]
  exact hv

theorem theta_v_nonneg (v : List K) (hv : 1 < l1norm v) : 0 ≤ thetaOf (absDesc v) :=
  theta_nonneg _ (absDesc_nonneg v) (one_lt_sum_absDesc v hv)

theorem sum_clip_v (v : List K) (hv : 1 < l1norm v) :
    (v.map (fun x => max (|x| - thetaOf (absDesc v)) 0)).sum = 1 := by
  have h := sum_max_theta (absDesc v) (absDesc_sorted v) (absDesc_nonneg v)
    (one_lt_sum_absDesc v hv)
  have hperm := (absDesc_perm v).map (fun x => max (x - thetaOf (absDesc v)) 0)
  rw [hperm.sum_eq, List.map_map] at h
  exact h

theorem softTh_abs (θ x : K) (hθ : 0 ≤ θ) : |softTh θ x| = max (|x| - θ) 0 := by
  rw [softTh, abs_mul]
  rcases lt_trichotomy x 0 with hx | hx | hx
  · rw [sgn, if_pos hx]
    rw [abs_of_nonneg (le_max_right (|x| - θ) 0)]
    norm_num
  · subst hx
    rw [sgn, if_neg (lt_irrefl 0), if_pos rfl, abs_zero, zero_mul, zero_sub,
      max_eq_right (by linarith : -θ ≤ 0)]
  · rw [sgn, if_neg (not_lt.mpr hx.le), if_neg (ne_of_gt hx)]
    rw [abs_of_nonneg (le_max_right (|x| - θ) 0)]
    norm_num

theorem softTh_vi_pointwise (θ x z : K) (hθ : 0 ≤ θ) :
    (x - softTh θ x) * (z - softTh θ x) ≤ θ * (|z| - |softTh θ x|) := by
  rcases le_or_lt (|x|) θ with hxθ | hxθ
  · have h0 : softTh θ x = 0 := by
      rw [softTh, max_eq_right (by linarith), mul_zero]
    rw [h0, abs_zero, sub_zero, sub_zero, sub_zero]
    calc x * z ≤ |x * z| := le_abs_self _
    _ = |x| * |z| := abs_mul x z
    _ ≤ θ * |z| := mul_le_mul_of_nonneg_right hxθ (abs_nonneg z)
  · rw [softTh_abs θ x hθ, max_eq_left (by linarith)]
    rcases lt_trichotomy x 0 with hx | hx | hx
    · have hs : softTh θ x = x + θ := by
        rw [softTh, max_eq_left (by linarith), sgn, if_pos hx, abs_of_neg hx]
        ring
      rw [hs, abs_of_neg hx]
      nlinarith [mul_nonneg hθ (show (0 : K) ≤ |z| + z by linarith [neg_abs_le z])]
    · exfalso
      rw [hx, abs_zero] at hxθ
      linarith
    · have hs : softTh θ x = x - θ := by
        rw [softTh, max_eq_left (by linarith), sgn, if_neg (not_lt.mpr hx.le),
          if_neg (ne_of_gt hx), abs_of_pos hx]
        ring
      rw [hs, abs_of_pos hx]
      nlinarith [mul_nonneg hθ (show (0 : K) ≤ |z| - z by linarith [le_abs_self z])]

theorem vi_sum (θ : K) (hθ : 0 ≤ θ) (v z : List K) (hlen : z.length = v.length) :
    dotL (lsubL v (v.map (softTh θ))) (lsubL z (v.map (softTh θ)))
      ≤ θ * (l1norm z - l1norm (v.map (softTh θ))) := by
  induction v generalizing z with
  | nil =>
    cases z with
    | nil => simp [dotL, lsubL, l1norm]
    | cons b z => simp at hlen
  | cons a v ih =>
    cases z with
    | nil => simp at hlen
    | cons b z =>
      have h1 := softTh_vi_pointwise θ a b hθ
      have h2 := ih z (by simpa using hlen)
      simp only [List.map_cons, lsubL, List.zipWith_cons_cons, dotL, List.sum_cons,
        l1norm] at h2 ⊢
      nlinarith [h1, h2]

theorem sumSqL_nonneg (l : List K) : 0 ≤ sumSqL l := by
  induction l with
  | nil => simp [sumSqL]
  | cons a l ih =>
    simp only [sumSqL, List.map_cons, List.sum_cons] at ih ⊢
    exact add_nonneg (sq_nonneg a) ih

theorem distSq_comm (a b : List K) : distSqL a b = distSqL b a := by
  unfold distSqL lsubL sumSqL
  induction a generalizing b with
  | nil => cases b <;> simp
  | cons x a ih =>
    cases b with
    | nil => simp
    | cons y b =>
      simp only [List.zipWith_cons_cons, List.map_cons, List.sum_cons]
      rw [ih b]
      ring_nf

theorem distSq_self (a : List K) : distSqL a a = 0 := by
  unfold distSqL lsubL sumSqL
  induction a with
  | nil => simp
  | cons x a ih =>
    simp only [List.zipWith_cons_cons, List.map_cons, List.sum_cons]
    rw [ih]
    ring

theorem distSq_expand (h : K → K) (v z : List K) (hlen : z.length = v.length) :
    distSqL z v = distSqL z (v.map h)
      + 2 * dotL (lsubL z (v.map h)) (lsubL (v.map h) v)
      + distSqL (v.map h) v := by
  induction v generalizing z with
  | nil =>
    cases z with
    | nil => simp [distSqL, lsubL, sumSqL, dotL]
    | cons b z => simp at hlen
  | cons a v ih =>
    cases z with
    | nil => simp at hlen
    | cons b z =>
      have h2 := ih z (by simpa using hlen)
      simp only [List.map_cons, distSqL, lsubL, sumSqL, dotL, List.zipWith_cons_cons,
        List.sum_cons] at h2 ⊢
      rw [h2]
      ring

theorem dot_neg_swap (h : K → K) (v z : List K) :
    dotL (lsubL z (v.map h)) (lsubL (v.map h) v)
      = - dotL (lsubL v (v.map h)) (lsubL z (v.map h)) := by
  induction v generalizing z with
  | nil => cases z <;> simp [dotL, lsubL]
  | cons a v ih =>
    cases z with
    | nil => simp [dotL, lsubL]
    | cons b z =>
      have ih2 := ih z
      simp only [dotL, lsubL] at ih2
      simp only [List.map_cons, lsubL, List.zipWith_cons_cons, dotL, List.sum_cons]
      rw [ih2]
      ring

theorem proj_l1_eq_clip (v : List K) (hv : 1 < l1norm v) :
    proj_l1 v = v.map (softTh (thetaOf (absDesc v))) := by
  rw [proj_l1, if_neg (not_le.mpr hv)]

theorem proj_l1_norm_eq_one (v : List K) (hv : 1 < l1norm v) :
    l1norm (v.map (softTh (thetaOf (absDesc v)))) = 1 := by
  have hθ := theta_v_nonneg v hv
  have heq : l1norm (v.map (softTh (thetaOf (absDesc v))))
      = (v.map (fun x => max (|x| - thetaOf (absDesc v)) 0)).sum := by
    rw [l1norm, List.map_map]
    congr 1
    apply List.map_congr_left
    intro x hx
    exact softTh_abs _ x hθ
  rw [heq, sum_clip_v v hv]

theorem proj_l1_inball (v : List K) : l1norm (proj_l1 v) ≤ 1 := by
  by_cases h : l1norm v ≤ 1
  · rw [proj_l1, if_pos h]
    exact h
  · push_neg at h
    rw [proj_l1_eq_clip v h, proj_l1_norm_eq_one v h]

theorem proj_l1_optimality (w z : List K) (hlen : z.length = w.length)
    (hz : l1norm z ≤ 1) : distSqL w (proj_l1 w) ≤ distSqL w z := by
  by_cases h : l1norm w ≤ 1
  · rw [proj_l1, if_pos h, distSq_self, distSqL]
    exact sumSqL_nonneg _
  · push_neg at h
    rw [proj_l1_eq_clip w h]
    have hθ : 0 ≤ thetaOf (absDesc w) := theta_v_nonneg w h
    have hx1 := proj_l1_norm_eq_one w h
    have hvi := vi_sum (thetaOf (absDesc w)) hθ w z hlen
    have hvi2 : dotL (lsubL w (w.map (softTh (thetaOf (absDesc w)))))
        (lsubL z (w.map (softTh (thetaOf (absDesc w))))) ≤ 0 := by
      apply le_trans hvi
      rw [hx1]
      have := mul_le_mul_of_nonneg_left (show l1norm z - 1 ≤ 0 by linarith) hθ
      rw [mul_zero] at this
      exact this
    have hexp := distSq_expand (softTh (thetaOf (absDesc w))) w z hlen
    have hswap := dot_neg_swap (softTh (thetaOf (absDesc w))) w z
    have h1 : 0 ≤ distSqL z (w.map (softTh (thetaOf (absDesc w)))) := sumSqL_nonneg _
    have hC : distSqL (w.map (softTh (thetaOf (absDesc w)))) w ≤ distSqL z w := by
      rw [hexp, hswap]
      linarith
    rw [distSq_comm w (w.map (softTh (thetaOf (absDesc w)))), distSq_comm w z]
    exact hC

/-- C3: `prox_norm_inf_base v t` equals `v - t * proj_l1 (v / t)` (Moreau's identity,
exactly as the code computes it), where the spec-modelled `proj_l1` really is the
Euclidean projection onto the unit L1 ball: its output always lies in the ball, and
among all points `z` of the ball (of matching length) it minimizes the squared
Euclidean distance to its input. -/
theorem claim3_inf_norm_moreau :
    (∀ (l : List K) (t : K), 0 < t →
      prox_norm_inf_base (NumCont.dvec l) t
        = .ok (.dvec (List.zipWith (fun x y => x - y) l
            ((proj_l1 (l.map (fun x => x / t))).map (fun y => t * y))))) ∧
    (∀ w z : List K, z.length = w.length → l1norm z ≤ 1 →
      l1norm (proj_l1 w) ≤ 1 ∧ distSqL w (proj_l1 w) ≤ distSqL w z) :=
  ⟨fun _ _ _ => rfl,
   fun w z hlen hz => ⟨proj_l1_inball w, proj_l1_optimality w z hlen hz⟩⟩

/-- Witness for C3: the Moreau identity and the projection property applied at
`v = [3, -1, 1/2]`, `t = 1`, `z = [0, 1, 0]`, with the projection evaluated:
`proj_l1 [3, -1, 1/2] = [1, 0, 0]`, so the prox is `[2, -1, 1/2]`. -/
theorem claim3_inf_norm_moreau_witness :
    (0 : ℚ) < 1 ∧ ([0, 1, 0] : List ℚ).length = ([3, -1, 1/2] : List ℚ).length ∧
    l1norm ([0, 1, 0] : List ℚ) ≤ 1 ∧
    proj_l1 ([3, -1, 1/2] : List ℚ) = [1, 0, 0] ∧
    prox_norm_inf_base (NumCont.dvec [3, -1, 1/2] : NumCont ℚ) 1
      = .ok (.dvec [2, -1, 1/2]) ∧
    l1norm (proj_l1 ([3, -1, 1/2] : List ℚ)) ≤ 1 ∧
    distSqL ([3, -1, 1/2] : List ℚ) (proj_l1 [3, -1, 1/2])
      ≤ distSqL [3, -1, 1/2] [0, 1, 0] := by
  have hproj : proj_l1 ([3, -1, 1/2] : List ℚ) = [1, 0, 0] := by
    norm_num [proj_l1, l1norm, absDesc, List.insertionSort, List.orderedInsert,
      thetaOf, rhoIdx, goodB, cumSum, List.range_succ, List.filter_cons,
      decide_eq_true_eq, softTh, sgn, max_def, abs_eq_max_neg]
  have h2 := claim3_inf_norm_moreau.2 ([3, -1, 1/2] : List ℚ) [0, 1, 0]
    (by rfl) (by norm_num [l1norm])
  have h1 := claim3_inf_norm_moreau.1 ([3, -1, 1/2] : List ℚ) 1 one_pos
  refine ⟨one_pos, rfl, by norm_num [l1norm], hproj, ?_, h2.1, h2.2⟩
  rw [h1]
  have hdiv : (([3, -1, 1/2] : List ℚ).map (fun x => x / 1)) = [3, -1, 1/2] := by
    norm_num
  rw [hdiv, hproj]
  norm_num
